import Mathlib

/-!
Verification of the opencode-gondolin-plugin session/execution core.

JavaScript strings are modelled as `List Char` (`JStr`).  The node `path`
(posix) functions used by `src/path-remap.ts` are modelled segment-wise,
following node's `normalizeString` algorithm.  The stateful session
manager (`src/session-manager.ts`) is modelled as a small-step transition
system over explicit task program counters, one atomic step per stretch
of code between `await` suspension points (JavaScript's single-threaded
cooperative scheduling).
-/

set_option maxHeartbeats 1000000
set_option maxRecDepth 4000

/-- Model of a JavaScript string. -/
abbrev JStr := List Char

namespace Gondolin

/-! ### Segment decomposition of paths (model of splitting on `/`) -/

/-- Splits a string at every `'/'` character; inverse of `joinSlash`.
`splitSlash "a/b" = ["a", "b"]`, `splitSlash "/a" = ["", "a"]`,
`splitSlash "" = [""]`. -/
def splitSlash : JStr → List JStr
  | [] => [[]]
  | c :: rest =>
    match splitSlash rest with
    | [] => if c = '/' then [[], []] else [[c]]
    | h :: t => if c = '/' then [] :: h :: t else (c :: h) :: t

/-- Joins segments with `'/'`; inverse of `splitSlash`. -/
def joinSlash : List JStr → JStr
  | [] => []
  | [s] => s
  | s :: t :: rest => s ++ '/' :: joinSlash (t :: rest)

theorem splitSlash_ne_nil (l : JStr) : splitSlash l ≠ [] := by
  cases l with
  | nil => simp [splitSlash]
  | cons c rest =>
    rw [splitSlash]
    rcases splitSlash rest with _ | ⟨hd, t⟩ <;> by_cases hc : c = '/' <;> simp [hc]

theorem splitSlash_slash_cons (rest : JStr) :
    splitSlash ('/' :: rest) = [] :: splitSlash rest := by
  rw [splitSlash]
  rcases h : splitSlash rest with _ | ⟨hd, t⟩
  · exact absurd h (splitSlash_ne_nil rest)
  · simp

theorem splitSlash_char_cons {c : Char} (hc : c ≠ '/') (rest : JStr) {hd : JStr}
    {t : List JStr} (h : splitSlash rest = hd :: t) :
    splitSlash (c :: rest) = (c :: hd) :: t := by
  rw [splitSlash, h]
  simp [hc]

theorem joinSlash_splitSlash (l : JStr) : joinSlash (splitSlash l) = l := by
  induction l with
  | nil => rfl
  | cons c rest ih =>
    rcases h : splitSlash rest with _ | ⟨hd, t⟩
    · exact absurd h (splitSlash_ne_nil rest)
    rw [h] at ih
    by_cases hc : c = '/'
    · subst hc
      rw [splitSlash_slash_cons, h]
      cases t <;> simp_all [joinSlash]
    · rw [splitSlash_char_cons hc rest h]
      cases t <;> simp_all [joinSlash]

theorem splitSlash_append (xs ys : JStr) :
    splitSlash (xs ++ '/' :: ys) = splitSlash xs ++ splitSlash ys := by
  induction xs with
  | nil =>
    rw [List.nil_append, splitSlash_slash_cons]
    rfl
  | cons c rest ih =>
    rcases h : splitSlash rest with _ | ⟨hd, t⟩
    · exact absurd h (splitSlash_ne_nil rest)
    by_cases hc : c = '/'
    · subst hc
      rw [List.cons_append, splitSlash_slash_cons, splitSlash_slash_cons, ih]
      simp
    · rcases h2 : splitSlash (rest ++ '/' :: ys) with _ | ⟨hd2, t2⟩
      · exact absurd h2 (splitSlash_ne_nil _)
      rw [List.cons_append, splitSlash_char_cons hc _ h2,
        splitSlash_char_cons hc rest h, List.cons_append]
      rw [ih, h, List.cons_append] at h2
      injection h2 with h3 h4
      rw [h3, h4]

theorem noSlash_of_mem_splitSlash :
    ∀ (l : JStr) (s : JStr), s ∈ splitSlash l → '/' ∉ s := by
  intro l
  induction l with
  | nil =>
    intro s hm
    simp [splitSlash] at hm
    simp [hm]
  | cons c rest ih =>
    intro s hm
    rcases h : splitSlash rest with _ | ⟨hd, t⟩
    · exact absurd h (splitSlash_ne_nil rest)
    by_cases hc : c = '/'
    · subst hc
      rw [splitSlash_slash_cons, List.mem_cons] at hm
      rcases hm with rfl | hm
      · simp
      · exact ih s hm
    · rw [splitSlash_char_cons hc rest h, List.mem_cons] at hm
      rcases hm with rfl | hm
      · intro hin
        rw [List.mem_cons] at hin
        rcases hin with hin | hin
        · exact hc hin.symm
        · exact ih hd (h ▸ List.mem_cons_self hd t) hin
      · exact ih s (h ▸ List.mem_cons_of_mem hd hm)

theorem joinSlash_append (A B : List JStr) (hA : A ≠ []) (hB : B ≠ []) :
    joinSlash (A ++ B) = joinSlash A ++ '/' :: joinSlash B := by
  induction A with
  | nil => exact absurd rfl hA
  | cons a A ih =>
    cases A with
    | nil =>
      cases B with
      | nil => exact absurd rfl hB
      | cons b B => simp [joinSlash]
    | cons a2 A2 =>
      have h2 : joinSlash (a2 :: A2 ++ B) = joinSlash (a2 :: A2) ++ '/' :: joinSlash B :=
        ih (by simp)
      show joinSlash (a :: (a2 :: A2 ++ B)) = _
      rw [List.cons_append a2 A2 B] at h2 ⊢
      rw [joinSlash, h2, joinSlash]
      simp

theorem mem_of_getLastEq {α : Type} :
    ∀ (l : List α) (x : α), l.getLast? = some x → x ∈ l := by
  intro l
  induction l with
  | nil => intro x hx; cases hx
  | cons a t ih =>
    intro x hx
    cases t with
    | nil =>
      simp [List.getLast?] at hx
      simp [hx]
    | cons b t2 =>
      rw [List.getLast?_cons_cons] at hx
      exact List.mem_cons_of_mem a (ih x hx)

theorem getLast_slash_mem :
    ∀ w : JStr, w.getLast? = some '/' → (splitSlash w).getLast? = some [] := by
  intro w
  induction w with
  | nil => intro hx; cases hx
  | cons c rest ih =>
    intro hx
    rcases h : splitSlash rest with _ | ⟨hd, t⟩
    · exact absurd h (splitSlash_ne_nil rest)
    cases rest with
    | nil =>
      simp [List.getLast?] at hx
      simp [hx, splitSlash_slash_cons, splitSlash, List.getLast?]
    | cons r0 r1 =>
      rw [List.getLast?_cons_cons] at hx
      have ihx := ih hx
      by_cases hc : c = '/'
      · subst hc
        rw [splitSlash_slash_cons]
        rw [h] at ihx ⊢
        cases t with
        | nil =>
          exfalso
          simp [List.getLast?] at ihx
          subst ihx
          have := joinSlash_splitSlash (r0 :: r1)
          rw [h] at this
          simp [joinSlash] at this
        | cons t0 ts => rw [List.getLast?_cons_cons]; exact ihx
      · rw [splitSlash_char_cons hc _ h]
        rw [h] at ihx
        cases t with
        | nil =>
          exfalso
          simp [List.getLast?] at ihx
          subst ihx
          have := joinSlash_splitSlash (r0 :: r1)
          rw [h] at this
          simp [joinSlash] at this
        | cons t0 ts =>
          rw [List.getLast?_cons_cons] at ihx ⊢
          exact ihx

/-! ### Path cleanliness: paths already in normal form -/

/-- Single path segment that survives normalization unchanged: nonempty and
neither `"."` nor `".."`. -/
def CleanSeg (s : JStr) : Prop := s ≠ [] ∧ s ≠ ['.'] ∧ s ≠ ['.', '.']

instance (s : JStr) : Decidable (CleanSeg s) := by unfold CleanSeg; infer_instance

/-- Relative path in normal form: every `/`-separated segment is clean (no
empty segments, so no leading, trailing or doubled slashes, and no `.`/`..`). -/
def CleanRel (p : JStr) : Prop := ∀ s ∈ splitSlash p, CleanSeg s

instance (p : JStr) : Decidable (CleanRel p) := List.decidableBAll _ _

/-- Absolute path in normal form: a `'/'` followed by a clean relative path. -/
def CleanAbs (p : JStr) : Prop := ∃ w, p = '/' :: w ∧ CleanRel w

instance : (p : JStr) → Decidable (CleanAbs p)
  | [] => isFalse (by rintro ⟨w, h, -⟩; cases h)
  | c :: w =>
    decidable_of_iff (c = '/' ∧ CleanRel w) (by
      constructor
      · rintro ⟨rfl, h⟩; exact ⟨w, rfl, h⟩
      · rintro ⟨w2, h, hc⟩
        injection h with h1 h2
        subst h1; subst h2
        exact ⟨rfl, hc⟩)

theorem cleanRel_ne_nil {p : JStr} (h : CleanRel p) : p ≠ [] := by
  intro hp
  subst hp
  exact (h [] (by simp [splitSlash])).1 rfl

theorem cleanRel_getLast_ne_slash {p : JStr} (h : CleanRel p) :
    p.getLast? ≠ some '/' := by
  intro hx
  have hm := mem_of_getLastEq _ _ (getLast_slash_mem p hx)
  exact (h [] hm).1 rfl

theorem cleanRel_append {a b : JStr} (ha : CleanRel a) (hb : CleanRel b) :
    CleanRel (a ++ '/' :: b) := by
  intro s hs
  rw [splitSlash_append, List.mem_append] at hs
  rcases hs with hs | hs
  · exact ha s hs
  · exact hb s hs

theorem cleanAbs_append {P r : JStr} (hP : CleanAbs P) (hr : CleanRel r) :
    CleanAbs (P ++ '/' :: r) := by
  obtain ⟨w, rfl, hw⟩ := hP
  exact ⟨w ++ '/' :: r, rfl, cleanRel_append hw hr⟩

/-! ### Model of the node `path` (posix) functions used by the source -/

/-- Model of posix `path.isAbsolute`: a path is absolute iff its first
character is `'/'`. -/
def isAbsolute (p : JStr) : Bool := decide (p.head? = some '/')

/-- Model of node's `normalizeString(path, allowAboveRoot)` segment loop:
empty and `"."` segments are dropped, `".."` pops the previous segment when
possible, and otherwise is kept only when `allowAboveRoot` is true (relative
paths). -/
def normGo (allowAboveRoot : Bool) : List JStr → List JStr → List JStr
  | acc, [] => acc
  | acc, s :: rest =>
    if s = [] ∨ s = ['.'] then normGo allowAboveRoot acc rest
    else if s = ['.', '.'] then
      if acc ≠ [] ∧ acc.getLast? ≠ some ['.', '.'] then
        normGo allowAboveRoot acc.dropLast rest
      else if allowAboveRoot then normGo allowAboveRoot (acc ++ [['.', '.']]) rest
      else normGo allowAboveRoot acc rest
    else normGo allowAboveRoot (acc ++ [s]) rest

theorem normGo_clean (ab : Bool) (segs : List JStr) :
    ∀ acc : List JStr, (∀ s ∈ segs, CleanSeg s) → normGo ab acc segs = acc ++ segs := by
  induction segs with
  | nil => intro acc _; simp [normGo]
  | cons s rest ih =>
    intro acc h
    obtain ⟨h1, h2, h3⟩ := h s (List.mem_cons_self s rest)
    rw [normGo]
    rw [if_neg (by simp [h1, h2]), if_neg h3,
      ih (acc ++ [s]) (fun x hx => h x (List.mem_cons_of_mem s hx))]
    simp

theorem normGo_clean_trail (ab : Bool) (segs : List JStr) :
    ∀ acc : List JStr, (∀ s ∈ segs, CleanSeg s) →
      normGo ab acc (segs ++ [[]]) = acc ++ segs := by
  induction segs with
  | nil => intro acc _; simp [normGo]
  | cons s rest ih =>
    intro acc h
    obtain ⟨h1, h2, h3⟩ := h s (List.mem_cons_self s rest)
    rw [List.cons_append, normGo]
    rw [if_neg (by simp [h1, h2]), if_neg h3,
      ih (acc ++ [s]) (fun x hx => h x (List.mem_cons_of_mem s hx))]
    simp

/-- Model of posix `path.normalize` (`src/path-remap.ts` uses it on absolute
inputs): resolves `.`/`..` segments, collapses separators, preserves a
trailing separator. -/
def normalize (p : JStr) : JStr :=
  if p = [] then ['.']
  else
    let body := joinSlash (normGo (!isAbsolute p) [] (splitSlash p))
    if body = [] then
      if isAbsolute p then ['/']
      else if p.getLast? = some '/' then ['.', '/'] else ['.']
    else
      (if isAbsolute p then '/' :: body else body) ++
        (if p.getLast? = some '/' then ['/'] else [])

theorem normalize_cleanAbs {p : JStr} (h : CleanAbs p) : normalize p = p := by
  obtain ⟨w, rfl, hw⟩ := h
  have hw0 : w ≠ [] := cleanRel_ne_nil hw
  have habs : isAbsolute ('/' :: w) = true := by simp [isAbsolute]
  have htrail : ('/' :: w).getLast? ≠ some '/' := by
    obtain ⟨w0, w1, rfl⟩ := List.exists_cons_of_ne_nil hw0
    rw [List.getLast?_cons_cons]
    exact cleanRel_getLast_ne_slash hw
  have hsegs : splitSlash ('/' :: w) = [] :: splitSlash w := splitSlash_slash_cons w
  have hgo : normGo (!isAbsolute ('/' :: w)) [] (splitSlash ('/' :: w)) = splitSlash w := by
    rw [hsegs, habs]
    show normGo false [] ([] :: splitSlash w) = splitSlash w
    rw [normGo, if_pos (Or.inl rfl)]
    exact normGo_clean false (splitSlash w) [] hw
  rw [normalize, if_neg (by simp)]
  simp only [hgo, joinSlash_splitSlash]
  rw [if_neg hw0, habs, if_pos rfl, if_neg htrail]
  simp

/-- Finishing step shared by the model of posix `path.resolve`: normalize the
combined path (no `..` escaping the root for absolute paths) and strip any
trailing separator. -/
def resolveFinish (combined : JStr) : JStr :=
  let body := joinSlash (normGo (!isAbsolute combined) [] (splitSlash combined))
  if isAbsolute combined then (if body = [] then ['/'] else '/' :: body)
  else (if body = [] then ['.'] else body)

/-- Model of posix `path.resolve(base, p)`.  The process-wide current working
directory is not modelled: when neither argument is absolute the combined
path is resolved as if the cwd were empty.  Every use in the source passes an
absolute `base` (the worktree directory), so that case never arises in the
claims. -/
def resolve2 (base p : JStr) : JStr :=
  if p = [] then resolveFinish (base ++ ['/'])
  else if isAbsolute p then resolveFinish (p ++ ['/'])
  else if base = [] then resolveFinish (p ++ ['/'])
  else resolveFinish (base ++ '/' :: p ++ ['/'])

/-- Model of single-argument posix `path.resolve(p)`. -/
def resolve1 (p : JStr) : JStr := resolve2 p []

theorem cleanRel_not_abs {r : JStr} (h : CleanRel r) : isAbsolute r = false := by
  cases r with
  | nil => rfl
  | cons c rest =>
    by_cases hc : c = '/'
    · subst hc
      exfalso
      have := h [] (by rw [splitSlash_slash_cons]; exact List.mem_cons_self _ _)
      exact this.1 rfl
    · simp [isAbsolute, hc]

theorem resolveFinish_cleanAbs_trail {P : JStr} (h : CleanAbs P) :
    resolveFinish (P ++ ['/']) = P := by
  obtain ⟨w, rfl, hw⟩ := h
  have hw0 : w ≠ [] := cleanRel_ne_nil hw
  have habs : isAbsolute ('/' :: w ++ ['/']) = true := by simp [isAbsolute]
  have hsegs : splitSlash ('/' :: w ++ ['/']) = [] :: (splitSlash w ++ [[]]) := by
    have hc : '/' :: w ++ ['/'] = '/' :: (w ++ '/' :: []) := by simp
    rw [hc, splitSlash_slash_cons, splitSlash_append]
    rfl
  have hgo : normGo (!true) [] ([] :: (splitSlash w ++ [[]])) = splitSlash w := by
    show normGo false [] _ = _
    rw [normGo, if_pos (Or.inl rfl)]
    exact normGo_clean_trail false (splitSlash w) [] hw
  rw [resolveFinish]
  simp only [habs, hsegs, hgo, joinSlash_splitSlash]
  simp [hw0]

theorem resolve1_cleanAbs {P : JStr} (h : CleanAbs P) : resolve1 P = P := by
  rw [resolve1, resolve2, if_pos rfl]
  exact resolveFinish_cleanAbs_trail h

theorem resolve2_clean {W r : JStr} (hW : CleanAbs W) (hr : CleanRel r) :
    resolve2 W r = W ++ '/' :: r := by
  obtain ⟨w, rfl, hw⟩ := hW
  have hw0 : w ≠ [] := cleanRel_ne_nil hw
  have hr0 : r ≠ [] := cleanRel_ne_nil hr
  have hsegs : splitSlash ('/' :: w ++ '/' :: r ++ ['/']) =
      [] :: (splitSlash w ++ (splitSlash r ++ [[]])) := by
    have hc : '/' :: w ++ '/' :: r ++ ['/'] = '/' :: (w ++ '/' :: (r ++ '/' :: [])) := by
      simp
    rw [hc, splitSlash_slash_cons, splitSlash_append, splitSlash_append]
    rfl
  have habs : isAbsolute ('/' :: w ++ '/' :: r ++ ['/']) = true := by simp [isAbsolute]
  have hclean : ∀ s ∈ splitSlash w ++ splitSlash r, CleanSeg s := by
    intro s hs
    rw [List.mem_append] at hs
    rcases hs with hs | hs
    · exact hw s hs
    · exact hr s hs
  have hgo : normGo (!true) [] ([] :: (splitSlash w ++ (splitSlash r ++ [[]]))) =
      splitSlash w ++ splitSlash r := by
    show normGo false [] _ = _
    rw [normGo, if_pos (Or.inl rfl), ← List.append_assoc]
    exact normGo_clean_trail false _ [] hclean
  rw [resolve2, if_neg hr0, if_neg (by rw [cleanRel_not_abs hr]; simp),
    if_neg (by simp), resolveFinish]
  simp only [habs, hsegs, hgo]
  rw [joinSlash_append _ _ (splitSlash_ne_nil w) (splitSlash_ne_nil r),
    joinSlash_splitSlash, joinSlash_splitSlash]
  simp [hw0]

/-- Length of the longest common segment-prefix of two segment lists. -/
def commonPrefixLen : List JStr → List JStr → Nat
  | a :: as, b :: bs => if a = b then commonPrefixLen as bs + 1 else 0
  | _, _ => 0

theorem commonPrefixLen_self_append (A B : List JStr) :
    commonPrefixLen A (A ++ B) = A.length := by
  induction A with
  | nil => cases B <;> rfl
  | cons a as ih => simp [commonPrefixLen, ih]

/-- Model of posix `path.relative(from, to)`: both arguments are resolved,
then the result walks up with `..` segments past the common segment-prefix
and down into the target.  Segment-wise formulation, equivalent to node's
character-level scan on resolved (clean, absolute, slash-free-segment)
paths; the cwd caveat of `resolve2` applies to non-absolute arguments. -/
def relative (f t : JStr) : JStr :=
  if f = t then []
  else
    let fr := resolve1 f
    let tr := resolve1 t
    if fr = tr then []
    else
      let fs := if fr = ['/'] then [] else splitSlash (fr.drop 1)
      let ts := if tr = ['/'] then [] else splitSlash (tr.drop 1)
      joinSlash (List.replicate (fs.length - commonPrefixLen fs ts) ['.', '.'] ++
        ts.drop (commonPrefixLen fs ts))

/-- Model of posix `path.join(a, b)`: concatenate the non-empty parts with a
separator and normalize. -/
def join2 (a b : JStr) : JStr :=
  if a = [] ∧ b = [] then ['.']
  else if a = [] then normalize b
  else if b = [] then normalize a
  else normalize (a ++ '/' :: b)

theorem join2_clean {W r : JStr} (hW : CleanAbs W) (hr : CleanRel r) :
    join2 W r = W ++ '/' :: r := by
  obtain ⟨w, rfl, hw⟩ := hW
  rw [join2, if_neg (by simp), if_neg (by simp), if_neg (cleanRel_ne_nil hr)]
  exact normalize_cleanAbs (cleanAbs_append ⟨w, rfl, hw⟩ hr)

theorem join2_nil_right {W : JStr} (hW : CleanAbs W) : join2 W [] = W := by
  obtain ⟨w, rfl, hw⟩ := hW
  rw [join2, if_neg (by simp), if_neg (by simp), if_pos rfl]
  exact normalize_cleanAbs ⟨w, rfl, hw⟩

theorem relative_self (f : JStr) : relative f f = [] := by
  rw [relative, if_pos rfl]

theorem relative_clean {P r : JStr} (hP : CleanAbs P) (hr : CleanRel r) :
    relative P (P ++ '/' :: r) = r := by
  obtain ⟨w, hPw, hw⟩ := hP
  have hw0 : w ≠ [] := cleanRel_ne_nil hw
  have hlen : P.length < (P ++ '/' :: r).length := by simp
  have hne : P ≠ P ++ '/' :: r := fun h => by rw [← h] at hlen; omega
  have hfr : resolve1 P = P := resolve1_cleanAbs ⟨w, hPw, hw⟩
  have htr : resolve1 (P ++ '/' :: r) = P ++ '/' :: r :=
    resolve1_cleanAbs (cleanAbs_append ⟨w, hPw, hw⟩ hr)
  rw [relative, if_neg hne]
  simp only [hfr, htr]
  rw [if_neg hne]
  subst hPw
  have hfr1 : ¬('/' :: w = ['/']) := by
    intro h
    injection h with h1 h2
    exact hw0 h2
  have htr1 : ¬('/' :: w ++ '/' :: r = ['/']) := by
    intro h
    have := congrArg List.length h
    simp at this
  rw [if_neg hfr1, if_neg htr1]
  have hdropf : ('/' :: w).drop 1 = w := rfl
  have hdropt : ('/' :: w ++ '/' :: r).drop 1 = w ++ '/' :: r := rfl
  rw [hdropf, hdropt, splitSlash_append, commonPrefixLen_self_append]
  simp only [Nat.sub_self, List.replicate_zero, List.nil_append, List.drop_left]
  exact joinSlash_splitSlash r

/-! ### Model of `src/path-remap.ts` -/

/-- Condition under which `remapPath` treats an absolute path as lying inside
the project directory (`src/path-remap.ts` lines 34-37): the normalized path
equals the normalized project directory or starts with it followed by the
path separator. -/
def underProject (filePath projectDir : JStr) : Prop :=
  normalize filePath = normalize projectDir ∨
    (normalize projectDir ++ ['/']) <+: normalize filePath

instance (filePath projectDir : JStr) : Decidable (underProject filePath projectDir) := by
  unfold underProject
  infer_instance

/-- Model of `remapPath` (`src/path-remap.ts` lines 22-44): relative paths
resolve against the worktree directory; absolute paths under the project
directory have that prefix replaced by the worktree directory; other paths
are returned unchanged. -/
def remapPath (filePath projectDir worktreeDir : JStr) : JStr :=
  if isAbsolute filePath = false then resolve2 worktreeDir filePath
  else if underProject filePath projectDir then
    join2 worktreeDir (relative (normalize projectDir) (normalize filePath))
  else filePath

/-- C7: a relative input resolves against the worktree directory (never the
project directory — the result does not mention it), and an absolute input
equal to or nested under the project directory has that prefix replaced by
the worktree directory, preserving the remainder exactly:
`remapPath (P ++ "/" ++ r) P W = W ++ "/" ++ r` and `remapPath P P W = W`. -/
theorem remapPath_correct (fp P W r : JStr) :
    (isAbsolute fp = false → remapPath fp P W = resolve2 W fp) ∧
    (CleanAbs W → CleanRel fp → remapPath fp P W = W ++ '/' :: fp) ∧
    (CleanAbs P → CleanAbs W → CleanRel r →
      remapPath (P ++ '/' :: r) P W = W ++ '/' :: r) ∧
    (CleanAbs P → CleanAbs W → remapPath P P W = W) := by
  refine ⟨?_, ?_, ?_, ?_⟩
  · intro h
    rw [remapPath, if_pos h]
  · intro hW hfp
    rw [remapPath, if_pos (cleanRel_not_abs hfp), resolve2_clean hW hfp]
  · intro hP hW hr
    obtain ⟨w, hPw, hw⟩ := hP
    have habs : ¬(isAbsolute (P ++ '/' :: r) = false) := by
      subst hPw; simp [isAbsolute]
    have hnormP : normalize P = P := normalize_cleanAbs ⟨w, hPw, hw⟩
    have hnormT : normalize (P ++ '/' :: r) = P ++ '/' :: r :=
      normalize_cleanAbs (cleanAbs_append ⟨w, hPw, hw⟩ hr)
    have hunder : underProject (P ++ '/' :: r) P := by
      rw [underProject, hnormP, hnormT]
      exact Or.inr ⟨r, by simp⟩
    rw [remapPath, if_neg habs, if_pos hunder, hnormP, hnormT,
      relative_clean ⟨w, hPw, hw⟩ hr, join2_clean hW hr]
  · intro hP hW
    obtain ⟨w, hPw, hw⟩ := hP
    have habs : ¬(isAbsolute P = false) := by subst hPw; simp [isAbsolute]
    have hnormP : normalize P = P := normalize_cleanAbs ⟨w, hPw, hw⟩
    have hunder : underProject P P := Or.inl rfl
    rw [remapPath, if_neg habs, if_pos hunder, hnormP, relative_self,
      join2_nil_right hW]

/-- Witness for C7 at concrete inputs. -/
theorem remapPath_correct_witness :
    remapPath ("rel/x".toList) ("/proj".toList) ("/tmp/wt".toList) =
      "/tmp/wt".toList ++ '/' :: "rel/x".toList ∧
    remapPath ("/proj".toList ++ '/' :: "a/b".toList) ("/proj".toList)
        ("/tmp/wt".toList) = "/tmp/wt".toList ++ '/' :: "a/b".toList ∧
    remapPath ("/proj".toList) ("/proj".toList) ("/tmp/wt".toList) =
      "/tmp/wt".toList :=
  ⟨(remapPath_correct ("rel/x".toList) ("/proj".toList) ("/tmp/wt".toList)
      ("a/b".toList)).2.1 (by decide) (by decide),
   (remapPath_correct ("rel/x".toList) ("/proj".toList) ("/tmp/wt".toList)
      ("a/b".toList)).2.2.1 (by decide) (by decide) (by decide),
   (remapPath_correct ("rel/x".toList) ("/proj".toList) ("/tmp/wt".toList)
      ("a/b".toList)).2.2.2 (by decide) (by decide)⟩

/-- C8: an absolute path that is neither equal to nor nested under the
project directory is returned unchanged by `remapPath`. -/
theorem remapPath_outside (p P W : JStr) (hp : CleanAbs p) (hP : CleanAbs P)
    (hne : p ≠ P) (hnest : ¬(P ++ ['/']) <+: p) : remapPath p P W = p := by
  obtain ⟨w, hpw, hw⟩ := hp
  have habs : ¬(isAbsolute p = false) := by subst hpw; simp [isAbsolute]
  have hnormp : normalize p = p := normalize_cleanAbs ⟨w, hpw, hw⟩
  have hnormP : normalize P = P := normalize_cleanAbs hP
  have hunder : ¬underProject p P := by
    rw [underProject, hnormp, hnormP]
    rintro (h | h)
    · exact hne h
    · exact hnest h
  rw [remapPath, if_neg habs, if_neg hunder]

/-- Witness for C8 at concrete inputs. -/
theorem remapPath_outside_witness :
    remapPath ("/etc/hosts".toList) ("/home/user/proj".toList) ("/tmp/wt".toList) =
      "/etc/hosts".toList :=
  remapPath_outside ("/etc/hosts".toList) ("/home/user/proj".toList)
    ("/tmp/wt".toList) (by decide) (by decide) (by decide) (by decide)

/-! ### Model of `src/bash-tool.ts` -/

/-- Maximum length of the `output` field in progress metadata
(`src/bash-tool.ts` line 4). -/
def MAX_METADATA_LENGTH : Nat := 30000

/-- Default command timeout in milliseconds (`src/bash-tool.ts` line 5). -/
def DEFAULT_TIMEOUT : Int := 2 * 60 * 1000

/-- Model of JavaScript `s.slice(-n)` for `n > 0`: the trailing
`min n s.length` characters. -/
def sliceLast (s : JStr) (n : Nat) : JStr := s.drop (s.length - n)

/-- Model of the working-directory resolution in `createBashTool.execute`
(`src/bash-tool.ts` lines 35-43).  An empty-string override is falsy in
JavaScript and therefore treated like an absent one; a given override is
rewritten by a raw string-prefix check against the project directory
(`String.prototype.startsWith` plus `slice`), otherwise used verbatim. -/
def resolveCwd (vmWorkspace projectDir : JStr) (workdir : Option JStr) : JStr :=
  match workdir with
  | none => vmWorkspace
  | some w =>
    if w = [] then vmWorkspace
    else if projectDir <+: w then vmWorkspace ++ w.drop projectDir.length
    else w

/-- Model of the timeout resolution (`src/bash-tool.ts` lines 46-47):
JavaScript truthiness means `0` falls through to the default, as does any
non-positive value. -/
def resolveTimeout (t : Option Int) : Int :=
  match t with
  | some v => if v ≠ 0 ∧ v > 0 then v else DEFAULT_TIMEOUT
  | none => DEFAULT_TIMEOUT

/-- Result of awaiting the VM process: exit code and captured stderr. -/
structure ProcResult where
  exitCode : Int
  stderr : JStr
deriving DecidableEq

/-- Model of the stream-draining loop (`src/bash-tool.ts` lines 80-92):
`chunks` is the sequence of output chunks processed before the loop ended
(the timeout/abort flags only cut this sequence short).  Returns the
accumulated output text and the successive metadata `output` fields
published, one per chunk. -/
def drainChunks (acc : JStr) : List JStr → JStr × List JStr
  | [] => (acc, [])
  | c :: rest =>
    ((drainChunks (acc ++ c) rest).1,
      sliceLast (acc ++ c) MAX_METADATA_LENGTH :: (drainChunks (acc ++ c) rest).2)

/-- Marker line appended when the timeout fired (`src/bash-tool.ts` line 110). -/
def timedOutMarker : JStr := "\n<metadata>Command timed out</metadata>".toList

/-- Marker line appended when the abort signal fired (`src/bash-tool.ts` line 113). -/
def abortedMarker : JStr := "\n<metadata>Command was aborted</metadata>".toList

/-- Termination marker lines appended after the loop
(`src/bash-tool.ts` lines 109-114). -/
def markers (timedOut aborted : Bool) : JStr :=
  (if timedOut then timedOutMarker else []) ++ (if aborted then abortedMarker else [])

/-- Model of the result assembly after the drain loop (`src/bash-tool.ts`
lines 94-115).  `res` is `some r` when `await proc` yielded
`{exitCode, stderr}` and `none` when it threw (swallowed by the `catch`
after a kill).  Captured stderr is appended exactly when the exit code is
non-zero and the stderr string is truthy (non-empty); no check against the
streamed output is performed. -/
def finalText (streamed : JStr) (res : Option ProcResult) (timedOut aborted : Bool) : JStr :=
  let afterStderr :=
    match res with
    | some r =>
      if r.exitCode ≠ 0 then
        (if r.stderr ≠ [] then streamed ++ r.stderr else streamed)
      else streamed
    | none => streamed
  afterStderr ++ markers timedOut aborted

/-- Model of the observable output behaviour of one `createBashTool.execute`
call: the returned result text and the list of published metadata `output`
fields (the initial empty publication of lines 50-53, then one per chunk). -/
def bashResult (chunks : List JStr) (res : Option ProcResult) (timedOut aborted : Bool) :
    JStr × List JStr :=
  let d := drainChunks [] chunks
  (finalText d.1 res timedOut aborted, [] :: d.2)

/-- Concatenation of all output chunks: the full accumulated stream output. -/
def concatAll : List JStr → JStr
  | [] => []
  | c :: rest => c ++ concatAll rest

theorem drainChunks_fst (chunks : List JStr) :
    ∀ acc, (drainChunks acc chunks).1 = acc ++ concatAll chunks := by
  induction chunks with
  | nil => intro acc; simp [drainChunks, concatAll]
  | cons c rest ih =>
    intro acc
    rw [drainChunks]
    show (drainChunks (acc ++ c) rest).1 = _
    rw [ih (acc ++ c), concatAll, List.append_assoc]

theorem drainChunks_bound (chunks : List JStr) :
    ∀ acc p, p ∈ (drainChunks acc chunks).2 → p.length ≤ MAX_METADATA_LENGTH := by
  induction chunks with
  | nil => intro acc p hp; simp [drainChunks] at hp
  | cons c rest ih =>
    intro acc p hp
    simp only [drainChunks, List.mem_cons] at hp
    rcases hp with h | hp
    · rw [h, sliceLast, List.length_drop]
      omega
    · exact ih (acc ++ c) p hp

theorem finalText_decomp (s : JStr) (res : Option ProcResult) (t a : Bool) :
    finalText s res t a =
      s ++ ((match res with
        | some r => if r.exitCode ≠ 0 ∧ r.stderr ≠ [] then r.stderr else []
        | none => []) ++ markers t a) := by
  rcases res with _ | r
  · simp [finalText]
  · by_cases h1 : r.exitCode = 0 <;> by_cases h2 : r.stderr = [] <;>
      simp [finalText, h1, h2]

/-- C6: every published progress metadata `output` field is at most 30000
characters long, the returned result text always contains the full
untruncated accumulated output as a prefix, and when nothing is appended
after the loop (clean exit, no markers) it equals the accumulation exactly. -/
theorem boundedProgress_unboundedResult (chunks : List JStr) (res : Option ProcResult)
    (timedOut aborted : Bool) :
    (∀ p ∈ (bashResult chunks res timedOut aborted).2, p.length ≤ MAX_METADATA_LENGTH) ∧
    concatAll chunks <+: (bashResult chunks res timedOut aborted).1 ∧
    ((∀ r, res = some r → r.exitCode = 0 ∨ r.stderr = []) → timedOut = false →
      aborted = false → (bashResult chunks res timedOut aborted).1 = concatAll chunks) := by
  refine ⟨?_, ?_, ?_⟩
  · intro p hp
    rcases List.mem_cons.mp hp with rfl | hp
    · simp
    · exact drainChunks_bound chunks [] p hp
  · show concatAll chunks <+: finalText (drainChunks [] chunks).1 res timedOut aborted
    rw [finalText_decomp, drainChunks_fst chunks [], List.nil_append]
    exact List.prefix_append _ _
  · intro hres ht ha
    show finalText (drainChunks [] chunks).1 res timedOut aborted = concatAll chunks
    rw [finalText_decomp, drainChunks_fst chunks [], List.nil_append, ht, ha]
    rcases res with _ | r
    · simp [markers]
    · rcases hres r rfl with h | h <;> simp [markers, h]

/-- Witness for C6 at concrete inputs. -/
theorem boundedProgress_unboundedResult_witness :
    (∀ p ∈ (bashResult ["hi\n".toList] (some ⟨0, []⟩) false false).2,
      p.length ≤ MAX_METADATA_LENGTH) ∧
    concatAll ["hi\n".toList] <+: (bashResult ["hi\n".toList] (some ⟨0, []⟩) false false).1 ∧
    (bashResult ["hi\n".toList] (some ⟨0, []⟩) false false).1 = concatAll ["hi\n".toList] :=
  ⟨(boundedProgress_unboundedResult ["hi\n".toList] (some ⟨0, []⟩) false false).1,
   (boundedProgress_unboundedResult ["hi\n".toList] (some ⟨0, []⟩) false false).2.1,
   (boundedProgress_unboundedResult ["hi\n".toList] (some ⟨0, []⟩) false false).2.2
     (fun r h => by cases h; exact Or.inl rfl) rfl rfl⟩

/-- C3 counterexample: with the single streamed chunk `"boom"` (so the
captured stderr `"boom"` is already fully reflected in the streamed output)
and exit code 1, the result text is `"boomboom"`, not the accumulated stream
output `"boom"` — the code appends captured stderr without any
already-reflected check. -/
theorem stderrAppend_counterexample :
    "boom".toList <:+: (drainChunks [] ["boom".toList]).1 ∧
    (bashResult ["boom".toList] (some ⟨1, "boom".toList⟩) false false).1 ≠
      (drainChunks [] ["boom".toList]).1 := by
  decide

/-- C3 amended: captured stderr is appended exactly when the final await
yields a non-zero exit code and a non-empty stderr, regardless of whether it
already appears in the streamed output; otherwise (zero exit, empty stderr,
or the await throwing after a kill) the result is exactly the accumulated
stream output plus the termination marker lines. -/
theorem stderrAppend_amended (chunks : List JStr) (r : ProcResult)
    (timedOut aborted : Bool) :
    (r.exitCode ≠ 0 → r.stderr ≠ [] →
      (bashResult chunks (some r) timedOut aborted).1 =
        concatAll chunks ++ r.stderr ++ markers timedOut aborted) ∧
    (r.exitCode = 0 ∨ r.stderr = [] →
      (bashResult chunks (some r) timedOut aborted).1 =
        concatAll chunks ++ markers timedOut aborted) ∧
    (bashResult chunks none timedOut aborted).1 =
      concatAll chunks ++ markers timedOut aborted := by
  refine ⟨?_, ?_, ?_⟩
  · intro h1 h2
    show finalText (drainChunks [] chunks).1 (some r) timedOut aborted =
      concatAll chunks ++ r.stderr ++ markers timedOut aborted
    rw [finalText_decomp, drainChunks_fst chunks [], List.nil_append]
    simp [h1, h2]
  · intro h
    show finalText (drainChunks [] chunks).1 (some r) timedOut aborted =
      concatAll chunks ++ markers timedOut aborted
    rw [finalText_decomp, drainChunks_fst chunks [], List.nil_append]
    rcases h with h | h <;> simp [h]
  · show finalText (drainChunks [] chunks).1 none timedOut aborted =
      concatAll chunks ++ markers timedOut aborted
    rw [finalText_decomp, drainChunks_fst chunks [], List.nil_append]
    simp

/-- Witness for the amended C3 at concrete inputs. -/
theorem stderrAppend_amended_witness :
    (bashResult ["out".toList] (some ⟨1, "err".toList⟩) false false).1 =
      concatAll ["out".toList] ++ "err".toList ++ markers false false ∧
    (bashResult ["out".toList] (some ⟨0, "err".toList⟩) false false).1 =
      concatAll ["out".toList] ++ markers false false :=
  ⟨(stderrAppend_amended ["out".toList] ⟨1, "err".toList⟩ false false).1
      (by decide) (by decide),
   (stderrAppend_amended ["out".toList] ⟨0, "err".toList⟩ false false).2.1
      (Or.inl rfl)⟩

/-- C2 counterexample: the override `"/projx"` does not lie under the project
directory `"/proj"` in the Path Remapper's sense, yet the bash tool does not
use it verbatim: the raw string-prefix check rewrites it to `"/workspacex"`. -/
theorem resolveCwd_counterexample :
    ¬underProject ("/projx".toList) ("/proj".toList) ∧
    resolveCwd ("/workspace".toList) ("/proj".toList) (some ("/projx".toList)) ≠
      "/projx".toList := by
  decide

/-- C2 amended: with no override (or a falsy empty-string override) the cwd
is the workspace mount point; an override that starts with the project
directory as a raw string prefix has that prefix replaced by string
concatenation with the mount point — this coincides with the Path Remapper's
substitution for overrides cleanly nested under the project directory, but
also fires for sibling paths sharing the prefix; any other override is used
verbatim. -/
theorem resolveCwd_amended (ws pd w r : JStr) :
    resolveCwd ws pd none = ws ∧
    resolveCwd ws pd (some []) = ws ∧
    (w ≠ [] → ¬pd <+: w → resolveCwd ws pd (some w) = w) ∧
    (w ≠ [] → pd <+: w → resolveCwd ws pd (some w) = ws ++ w.drop pd.length) ∧
    (CleanAbs pd → CleanAbs ws → CleanRel r →
      resolveCwd ws pd (some (pd ++ '/' :: r)) = remapPath (pd ++ '/' :: r) pd ws) := by
  refine ⟨rfl, rfl, ?_, ?_, ?_⟩
  · intro h1 h2
    rw [resolveCwd, if_neg h1, if_neg h2]
  · intro h1 h2
    rw [resolveCwd, if_neg h1, if_pos h2]
  · intro hpd hws hr
    obtain ⟨w2, hpw, hw2⟩ := hpd
    have h1 : pd ++ '/' :: r ≠ [] := by subst hpw; simp
    have h2 : pd <+: pd ++ '/' :: r := List.prefix_append _ _
    rw [resolveCwd, if_neg h1, if_pos h2, List.drop_left,
      (remapPath_correct (pd ++ '/' :: r) pd ws r).2.2.1 ⟨w2, hpw, hw2⟩ hws hr]

/-- Witness for the amended C2 at concrete inputs. -/
theorem resolveCwd_amended_witness :
    resolveCwd ("/workspace".toList) ("/proj".toList) (some ("/other".toList)) =
      "/other".toList ∧
    resolveCwd ("/workspace".toList) ("/proj".toList)
        (some ("/proj".toList ++ '/' :: "a".toList)) =
      remapPath ("/proj".toList ++ '/' :: "a".toList) ("/proj".toList)
        ("/workspace".toList) :=
  ⟨(resolveCwd_amended ("/workspace".toList) ("/proj".toList) ("/other".toList)
      ("a".toList)).2.2.1 (by decide) (by decide),
   (resolveCwd_amended ("/workspace".toList) ("/proj".toList) ("/other".toList)
      ("a".toList)).2.2.2.2 (by decide) (by decide) (by decide)⟩

/-! ### Model of `src/session-manager.ts`

JavaScript runs async functions with single-threaded cooperative
scheduling: code between two `await` suspension points executes atomically.
The session manager is modelled as a transition system whose tasks are
in-flight `getOrCreate`/`destroy` calls, with one atomic step per stretch
of code between suspension points.  `Map` objects are modelled as
association lists with unique keys. -/

/-- Model of the `SessionState` record (`src/session-manager.ts` lines 4-9).
VM handles are identified by creation order; `Date.now()` is modelled as 0
since `createdAt` is informational only. -/
structure SessionState where
  vm : Nat
  worktreeDir : JStr
  vmWorkspace : JStr
  createdAt : Nat
deriving DecidableEq

/-- Model of `Map.get`. -/
def mlookup {α : Type} : List (JStr × α) → JStr → Option α
  | [], _ => none
  | (k, v) :: rest, key => if k = key then some v else mlookup rest key

/-- Model of `Map.delete`: removes every pair with the given key. -/
def merase {α : Type} : List (JStr × α) → JStr → List (JStr × α)
  | [], _ => []
  | (k, v) :: rest, key =>
    if k = key then merase rest key else (k, v) :: merase rest key

/-- Model of `Map.set`. -/
def minsert {α : Type} (m : List (JStr × α)) (key : JStr) (v : α) : List (JStr × α) :=
  (key, v) :: merase m key

theorem mlookup_merase_self {α : Type} (m : List (JStr × α)) (k : JStr) :
    mlookup (merase m k) k = none := by
  induction m with
  | nil => rfl
  | cons p rest ih =>
    obtain ⟨p1, p2⟩ := p
    by_cases h : p1 = k
    · simpa [merase, h] using ih
    · simp [merase, h, mlookup, ih]

/-- Global state of the session-manager model: the two registry maps of the
`SessionManager` class (lines 12-13), promise cells for in-flight
initialisations, and logs of the external effects performed (worktree
creations by `createWorktree`, VM creations by `VM.create`, VM closes and
worktree removals by `destroy`). -/
structure MState where
  sessions : List (JStr × SessionState)
  initializing : List (JStr × Nat)
  promises : List (Option SessionState)
  worktreesCreated : List JStr
  vmsCreated : Nat
  vmsClosed : List Nat
  worktreesRemoved : List JStr
deriving DecidableEq

/-- Initial state: fresh `SessionManager` with empty maps and no effects. -/
def emptyMState : MState :=
  { sessions := [], initializing := [], promises := [], worktreesCreated := [],
    vmsCreated := 0, vmsClosed := [], worktreesRemoved := [] }

/-- Program counter of one in-flight call, one constructor per atomic
stretch of code between `await` suspension points:

* `gocStart`: about to run the synchronous prefix of `getOrCreate`
  (lines 26-33: both map lookups, starting `init`, and publishing the
  in-flight promise happen with no `await` in between, hence atomically).
* `gocInitWorktree`: the creator's `init` is about to perform the worktree
  creation (`createWorktree`, awaited at line 83).
* `gocInitVM`: about to perform `VM.create` (awaited at line 89); completing
  this step resolves the in-flight promise with the new state.
* `gocAwait`: the creator resumed after `await promise`; lines 37-40
  (`sessions.set`, return, and the `finally` deleting the in-flight marker)
  run in one microtask.
* `gocWaiting`: a non-creator call awaiting the published in-flight promise
  (line 30); it returns the promise's value directly.
* `desStart`: about to run the synchronous prefix of `destroy` (lines 62-66:
  lookup, early return, and both map deletions — no `await` in between).
* `desCloseVM` / `desRemoveWT`: the teardown I/O of `destroy`
  (lines 68-69), one step per awaited call. -/
inductive TaskState where
  | gocStart (sid : JStr)
  | gocInitWorktree (sid : JStr) (pid : Nat)
  | gocInitVM (sid : JStr) (pid : Nat) (wt : JStr)
  | gocAwait (sid : JStr) (pid : Nat)
  | gocWaiting (sid : JStr) (pid : Nat)
  | gocDone (result : SessionState)
  | desStart (sid : JStr)
  | desCloseVM (st : SessionState)
  | desRemoveWT (st : SessionState)
  | desDone
deriving DecidableEq

/-- One atomic step of a task, following the source code of
`getOrCreate`/`init`/`destroy`.  `createWorktree` computes
`path.join(baseDir, sessionID)` (`src/worktree.ts` line 17); `VM.create`
mounts the worktree at the workspace path (lines 89-95). -/
def stepTask (baseDir vmWorkspace : JStr) (ms : MState) : TaskState → MState × TaskState
  | .gocStart sid =>
    match mlookup ms.sessions sid with
    | some st => (ms, .gocDone st)
    | none =>
      match mlookup ms.initializing sid with
      | some pid => (ms, .gocWaiting sid pid)
      | none =>
        ({ ms with
            promises := ms.promises ++ [none],
            initializing := minsert ms.initializing sid ms.promises.length },
          .gocInitWorktree sid ms.promises.length)
  | .gocInitWorktree sid pid =>
    ({ ms with worktreesCreated := ms.worktreesCreated ++ [join2 baseDir sid] },
      .gocInitVM sid pid (join2 baseDir sid))
  | .gocInitVM sid pid wt =>
    ({ ms with
        vmsCreated := ms.vmsCreated + 1,
        promises := ms.promises.set pid
          (some { vm := ms.vmsCreated, worktreeDir := wt,
                  vmWorkspace := vmWorkspace, createdAt := 0 }) },
      .gocAwait sid pid)
  | .gocAwait sid pid =>
    match ms.promises.get? pid with
    | some (some st) =>
      ({ ms with sessions := minsert ms.sessions sid st,
                 initializing := merase ms.initializing sid },
        .gocDone st)
    | _ => (ms, .gocAwait sid pid)
  | .gocWaiting sid pid =>
    match ms.promises.get? pid with
    | some (some st) => (ms, .gocDone st)
    | _ => (ms, .gocWaiting sid pid)
  | .desStart sid =>
    match mlookup ms.sessions sid with
    | none => (ms, .desDone)
    | some st =>
      ({ ms with sessions := merase ms.sessions sid,
                 initializing := merase ms.initializing sid },
        .desCloseVM st)
  | .desCloseVM st =>
    ({ ms with vmsClosed := ms.vmsClosed ++ [st.vm] }, .desRemoveWT st)
  | .desRemoveWT st =>
    ({ ms with worktreesRemoved := ms.worktreesRemoved ++ [st.worktreeDir] }, .desDone)
  | .gocDone st => (ms, .gocDone st)
  | .desDone => (ms, .desDone)

/-- Configuration: the shared state plus every task's program counter. -/
structure Config where
  ms : MState
  tasks : List TaskState
deriving DecidableEq

/-- Schedule one step of the `i`-th task (out-of-range or finished tasks are
a no-op, as is a task blocked on an unresolved promise). -/
def step (baseDir vmWorkspace : JStr) (cfg : Config) (i : Nat) : Config :=
  match cfg.tasks.get? i with
  | none => cfg
  | some t =>
    { ms := (stepTask baseDir vmWorkspace cfg.ms t).1,
      tasks := cfg.tasks.set i (stepTask baseDir vmWorkspace cfg.ms t).2 }

/-- Run an arbitrary interleaving: the schedule names which task steps when. -/
def run (baseDir vmWorkspace : JStr) (cfg : Config) (sched : List Nat) : Config :=
  sched.foldl (step baseDir vmWorkspace) cfg

/-- Whether a task's call has returned. -/
def isDone : TaskState → Bool
  | .gocDone _ => true
  | .desDone => true
  | _ => false

/-- Sequential execution of one `destroy(sid)` call to completion (its three
atomic steps back to back, with no interleaving). -/
def destroySeq (baseDir vmWorkspace : JStr) (ms : MState) (sid : JStr) : MState :=
  (stepTask baseDir vmWorkspace
    (stepTask baseDir vmWorkspace
      (stepTask baseDir vmWorkspace ms (.desStart sid)).1
      (stepTask baseDir vmWorkspace ms (.desStart sid)).2).1
    (stepTask baseDir vmWorkspace
      (stepTask baseDir vmWorkspace ms (.desStart sid)).1
      (stepTask baseDir vmWorkspace ms (.desStart sid)).2).2).1

theorem destroySeq_of_none {baseDir vmWorkspace sid : JStr} {ms : MState}
    (h : mlookup ms.sessions sid = none) :
    destroySeq baseDir vmWorkspace ms sid = ms := by
  simp [destroySeq, stepTask, h]

theorem destroySeq_of_some {baseDir vmWorkspace sid : JStr} {ms : MState}
    {st : SessionState} (h : mlookup ms.sessions sid = some st) :
    destroySeq baseDir vmWorkspace ms sid =
      { ms with sessions := merase ms.sessions sid,
                initializing := merase ms.initializing sid,
                vmsClosed := ms.vmsClosed ++ [st.vm],
                worktreesRemoved := ms.worktreesRemoved ++ [st.worktreeDir] } := by
  simp [destroySeq, stepTask, h]

/-- C5: `destroy` on an absent session identifier is a complete no-op (no
state change, no teardown I/O, so nothing to raise); running `destroy` a
second time on the same identifier is a no-op; and when the session exists,
the very first atomic step removes it from both registry maps while the
teardown I/O (VM close, worktree removal) has not yet happened, so no
subsequent lookup observes a session mid-destruction. -/
theorem destroy_idempotent (baseDir vmWorkspace sid : JStr) (ms : MState)
    (st : SessionState) :
    (mlookup ms.sessions sid = none →
      stepTask baseDir vmWorkspace ms (.desStart sid) = (ms, .desDone) ∧
      destroySeq baseDir vmWorkspace ms sid = ms) ∧
    destroySeq baseDir vmWorkspace (destroySeq baseDir vmWorkspace ms sid) sid =
      destroySeq baseDir vmWorkspace ms sid ∧
    (mlookup ms.sessions sid = some st →
      mlookup (stepTask baseDir vmWorkspace ms (.desStart sid)).1.sessions sid = none ∧
      (stepTask baseDir vmWorkspace ms (.desStart sid)).1.vmsClosed = ms.vmsClosed ∧
      (stepTask baseDir vmWorkspace ms (.desStart sid)).1.worktreesRemoved =
        ms.worktreesRemoved ∧
      (stepTask baseDir vmWorkspace ms (.desStart sid)).2 = .desCloseVM st) := by
  refine ⟨?_, ?_, ?_⟩
  · intro h
    exact ⟨by simp [stepTask, h], destroySeq_of_none h⟩
  · rcases hl : mlookup ms.sessions sid with _ | st2
    · rw [destroySeq_of_none hl, destroySeq_of_none hl]
    · rw [destroySeq_of_some hl]
      exact destroySeq_of_none (mlookup_merase_self ms.sessions sid)
  · intro h
    refine ⟨?_, ?_, ?_, ?_⟩ <;> simp [stepTask, h, mlookup_merase_self]

/-- Witness for C5 at concrete inputs. -/
theorem destroy_idempotent_witness :
    stepTask ("/tmp/b".toList) ("/workspace".toList) emptyMState
        (.desStart ("s1".toList)) = (emptyMState, .desDone) ∧
    destroySeq ("/tmp/b".toList) ("/workspace".toList) emptyMState ("s1".toList) =
      emptyMState :=
  (destroy_idempotent ("/tmp/b".toList) ("/workspace".toList) ("s1".toList)
    emptyMState ⟨0, [], [], 0⟩).1 rfl

theorem get?_set {α : Type} (l : List α) (i j : Nat) (a : α) :
    (l.set i a).get? j =
      if i = j then Option.map (fun _ => a) (l.get? j) else l.get? j := by
  induction l generalizing i j with
  | nil => cases i <;> cases j <;> simp [List.set]
  | cons x xs ih =>
    cases i with
    | zero => cases j with
      | zero => simp
      | succ m => simp
    | succ n => cases j with
      | zero => simp
      | succ m =>
        show (xs.set n a).get? m = _
        rw [ih n m]
        by_cases h : n = m
        · simp [h]
        · rw [if_neg h, if_neg (by simp [h])]
          rfl

/-! #### Single-flight invariant for one session identifier

All states and tasks below concern one fixed session identifier `sid`
starting from a fresh manager.  `st0` is the unique session state the single
creation builds; `ms1a` through `ms3` are the manager states at each stage
of the creation. -/

/-- The one session state built by the single creation: first VM handle,
worktree at `path.join(baseDir, sid)`. -/
def st0 (baseDir vmWorkspace sid : JStr) : SessionState :=
  { vm := 0, worktreeDir := join2 baseDir sid, vmWorkspace := vmWorkspace,
    createdAt := 0 }

/-- Manager state right after the creator's synchronous prefix: the in-flight
promise is published, nothing created yet. -/
def ms1a (sid : JStr) : MState :=
  { emptyMState with initializing := [(sid, 0)], promises := [none] }

/-- Manager state after the worktree creation step. -/
def ms1b (sid baseDir : JStr) : MState :=
  { ms1a sid with worktreesCreated := [join2 baseDir sid] }

/-- Manager state after the VM creation step: the promise is resolved. -/
def ms2 (sid baseDir vmWorkspace : JStr) : MState :=
  { ms1b sid baseDir with
    promises := [some (st0 baseDir vmWorkspace sid)],
    vmsCreated := 1 }

/-- Manager state after the creator's resume step: session registered, the
in-flight marker cleared (in the same microtask). -/
def ms3 (sid baseDir vmWorkspace : JStr) : MState :=
  { ms2 sid baseDir vmWorkspace with
    sessions := [(sid, st0 baseDir vmWorkspace sid)], initializing := [] }

/-- Non-creator task states reachable while/after one creation runs. -/
def Others (sid baseDir vmWorkspace : JStr) (t : TaskState) : Prop :=
  t = .gocStart sid ∨ t = .gocWaiting sid 0 ∨
    t = .gocDone (st0 baseDir vmWorkspace sid)

/-- Every indexed task satisfies `P`. -/
def AllP (tasks : List TaskState) (P : TaskState → Prop) : Prop :=
  ∀ j t, tasks.get? j = some t → P t

/-- Exactly one task (the creator) is at program counter `c`; all other
tasks satisfy `P`. -/
def OneAt (tasks : List TaskState) (c : TaskState) (P : TaskState → Prop) : Prop :=
  ∃ i, tasks.get? i = some c ∧ ∀ j t, j ≠ i → tasks.get? j = some t → P t

/-- Invariant of the single-flight scenario: the system is in one of five
phases — fresh, creator before worktree creation, creator before VM
creation, promise resolved but session not yet registered, or session
registered — and in each phase the shared state is fully determined. -/
def Inv (sid baseDir vmWorkspace : JStr) (cfg : Config) : Prop :=
  (cfg.ms = emptyMState ∧ AllP cfg.tasks (fun t => t = .gocStart sid)) ∨
  (cfg.ms = ms1a sid ∧
    OneAt cfg.tasks (.gocInitWorktree sid 0) (Others sid baseDir vmWorkspace)) ∨
  (cfg.ms = ms1b sid baseDir ∧
    OneAt cfg.tasks (.gocInitVM sid 0 (join2 baseDir sid))
      (Others sid baseDir vmWorkspace)) ∨
  (cfg.ms = ms2 sid baseDir vmWorkspace ∧
    OneAt cfg.tasks (.gocAwait sid 0) (Others sid baseDir vmWorkspace)) ∨
  (cfg.ms = ms3 sid baseDir vmWorkspace ∧
    AllP cfg.tasks (Others sid baseDir vmWorkspace))

theorem stepTask_start_empty (baseDir vmWorkspace sid : JStr) :
    stepTask baseDir vmWorkspace emptyMState (.gocStart sid) =
      (ms1a sid, .gocInitWorktree sid 0) := rfl

theorem stepTask_start_ms1a (baseDir vmWorkspace sid : JStr) :
    stepTask baseDir vmWorkspace (ms1a sid) (.gocStart sid) =
      (ms1a sid, .gocWaiting sid 0) := by
  simp [stepTask, ms1a, emptyMState, mlookup]

theorem stepTask_start_ms1b (baseDir vmWorkspace sid : JStr) :
    stepTask baseDir vmWorkspace (ms1b sid baseDir) (.gocStart sid) =
      (ms1b sid baseDir, .gocWaiting sid 0) := by
  simp [stepTask, ms1b, ms1a, emptyMState, mlookup]

theorem stepTask_start_ms2 (baseDir vmWorkspace sid : JStr) :
    stepTask baseDir vmWorkspace (ms2 sid baseDir vmWorkspace) (.gocStart sid) =
      (ms2 sid baseDir vmWorkspace, .gocWaiting sid 0) := by
  simp [stepTask, ms2, ms1b, ms1a, emptyMState, mlookup]

theorem stepTask_start_ms3 (baseDir vmWorkspace sid : JStr) :
    stepTask baseDir vmWorkspace (ms3 sid baseDir vmWorkspace) (.gocStart sid) =
      (ms3 sid baseDir vmWorkspace, .gocDone (st0 baseDir vmWorkspace sid)) := by
  simp [stepTask, ms3, ms2, ms1b, ms1a, emptyMState, mlookup]

theorem stepTask_wait_ms1a (baseDir vmWorkspace sid : JStr) :
    stepTask baseDir vmWorkspace (ms1a sid) (.gocWaiting sid 0) =
      (ms1a sid, .gocWaiting sid 0) := by
  simp [stepTask, ms1a, emptyMState]

theorem stepTask_wait_ms1b (baseDir vmWorkspace sid : JStr) :
    stepTask baseDir vmWorkspace (ms1b sid baseDir) (.gocWaiting sid 0) =
      (ms1b sid baseDir, .gocWaiting sid 0) := by
  simp [stepTask, ms1b, ms1a, emptyMState]

theorem stepTask_wait_ms2 (baseDir vmWorkspace sid : JStr) :
    stepTask baseDir vmWorkspace (ms2 sid baseDir vmWorkspace) (.gocWaiting sid 0) =
      (ms2 sid baseDir vmWorkspace, .gocDone (st0 baseDir vmWorkspace sid)) := by
  simp [stepTask, ms2, ms1b, ms1a, emptyMState]

theorem stepTask_wait_ms3 (baseDir vmWorkspace sid : JStr) :
    stepTask baseDir vmWorkspace (ms3 sid baseDir vmWorkspace) (.gocWaiting sid 0) =
      (ms3 sid baseDir vmWorkspace, .gocDone (st0 baseDir vmWorkspace sid)) := by
  simp [stepTask, ms3, ms2, ms1b, ms1a, emptyMState]

theorem stepTask_wt_ms1a (baseDir vmWorkspace sid : JStr) :
    stepTask baseDir vmWorkspace (ms1a sid) (.gocInitWorktree sid 0) =
      (ms1b sid baseDir, .gocInitVM sid 0 (join2 baseDir sid)) := by
  simp [stepTask, ms1b, ms1a, emptyMState]

theorem stepTask_vm_ms1b (baseDir vmWorkspace sid : JStr) :
    stepTask baseDir vmWorkspace (ms1b sid baseDir)
        (.gocInitVM sid 0 (join2 baseDir sid)) =
      (ms2 sid baseDir vmWorkspace, .gocAwait sid 0) := by
  simp [stepTask, ms2, ms1b, ms1a, emptyMState, st0, List.set]

theorem stepTask_await_ms2 (baseDir vmWorkspace sid : JStr) :
    stepTask baseDir vmWorkspace (ms2 sid baseDir vmWorkspace) (.gocAwait sid 0) =
      (ms3 sid baseDir vmWorkspace, .gocDone (st0 baseDir vmWorkspace sid)) := by
  simp [stepTask, ms3, ms2, ms1b, ms1a, emptyMState, minsert, merase]

theorem stepTask_done (baseDir vmWorkspace : JStr) (ms : MState) (st : SessionState) :
    stepTask baseDir vmWorkspace ms (.gocDone st) = (ms, .gocDone st) := rfl

theorem OneAt_set_creator {tasks : List TaskState} {c c' : TaskState}
    {P : TaskState → Prop} {i : Nat} (hgi : tasks.get? i = some c)
    (hothers : ∀ j t, j ≠ i → tasks.get? j = some t → P t) :
    OneAt (tasks.set i c') c' P := by
  refine ⟨i, ?_, ?_⟩
  · rw [get?_set, if_pos rfl, hgi]
    rfl
  · intro j t hji hj
    rw [get?_set, if_neg (fun h => hji h.symm)] at hj
    exact hothers j t hji hj

theorem OneAt_set_other {tasks : List TaskState} {c : TaskState}
    {P : TaskState → Prop} {i k : Nat} (hgi : tasks.get? i = some c)
    (hothers : ∀ j t, j ≠ i → tasks.get? j = some t → P t)
    (hki : k ≠ i) {t' : TaskState} (hP : P t') :
    OneAt (tasks.set k t') c P := by
  refine ⟨i, ?_, ?_⟩
  · rw [get?_set, if_neg hki]
    exact hgi
  · intro j t hji hj
    rw [get?_set] at hj
    by_cases hkj : k = j
    · rw [if_pos hkj] at hj
      rcases hm : tasks.get? j with _ | u <;> rw [hm] at hj
      · cases hj
      · injection hj with hj
        rw [← hj]
        exact hP
    · rw [if_neg hkj] at hj
      exact hothers j t hji hj

theorem AllP_to_OneAt {tasks : List TaskState} {P Q : TaskState → Prop} {k : Nat}
    {t c' : TaskState} (h : AllP tasks P) (hk : tasks.get? k = some t)
    (himp : ∀ u, P u → Q u) : OneAt (tasks.set k c') c' Q := by
  refine ⟨k, ?_, ?_⟩
  · rw [get?_set, if_pos rfl, hk]
    rfl
  · intro j u hji hj
    rw [get?_set, if_neg (fun hh => hji hh.symm)] at hj
    exact himp u (h j u hj)

theorem OneAt_to_AllP {tasks : List TaskState}
    {P : TaskState → Prop} {i : Nat} {c' : TaskState}
    (hothers : ∀ j t, j ≠ i → tasks.get? j = some t → P t) (hc' : P c') :
    AllP (tasks.set i c') P := by
  intro j t hj
  rw [get?_set] at hj
  by_cases hij : i = j
  · rw [if_pos hij] at hj
    rcases hm : tasks.get? j with _ | u <;> rw [hm] at hj
    · cases hj
    · injection hj with hj
      rw [← hj]
      exact hc'
  · rw [if_neg hij] at hj
    exact hothers j t (fun hh => hij hh.symm) hj

theorem AllP_set {tasks : List TaskState} {P : TaskState → Prop}
    (h : AllP tasks P) {k : Nat} {t' : TaskState} (hP : P t') :
    AllP (tasks.set k t') P := by
  intro j t hj
  rw [get?_set] at hj
  by_cases hkj : k = j
  · rw [if_pos hkj] at hj
    rcases hm : tasks.get? j with _ | u <;> rw [hm] at hj
    · cases hj
    · injection hj with hj
      rw [← hj]
      exact hP
  · rw [if_neg hkj] at hj
    exact h j t hj

theorem inv_step (sid baseDir vmWorkspace : JStr) (cfg : Config) (k : Nat)
    (h : Inv sid baseDir vmWorkspace cfg) :
    Inv sid baseDir vmWorkspace (step baseDir vmWorkspace cfg k) := by
  rcases hk : cfg.tasks.get? k with _ | t
  · have hstep : step baseDir vmWorkspace cfg k = cfg := by
      unfold step
      rw [hk]
    rw [hstep]
    exact h
  · have hstep : step baseDir vmWorkspace cfg k =
        { ms := (stepTask baseDir vmWorkspace cfg.ms t).1,
          tasks := cfg.tasks.set k (stepTask baseDir vmWorkspace cfg.ms t).2 } := by
      unfold step
      rw [hk]
    rw [hstep]
    rcases h with ⟨hms, hall⟩ | ⟨hms, i, hgi, hothers⟩ | ⟨hms, i, hgi, hothers⟩ |
      ⟨hms, i, hgi, hothers⟩ | ⟨hms, hall⟩
    · have ht : t = .gocStart sid := hall k t hk
      subst ht
      rw [hms, stepTask_start_empty]
      exact Or.inr (Or.inl ⟨rfl, AllP_to_OneAt hall hk (fun u hu => Or.inl hu)⟩)
    · by_cases hki : k = i
      · subst hki
        rw [hgi] at hk
        injection hk with hk2
        subst hk2
        rw [hms, stepTask_wt_ms1a]
        exact Or.inr (Or.inr (Or.inl ⟨rfl, OneAt_set_creator hgi hothers⟩))
      · rcases hothers k t hki hk with rfl | rfl | rfl
        · rw [hms, stepTask_start_ms1a]
          exact Or.inr (Or.inl
            ⟨rfl, OneAt_set_other hgi hothers hki (Or.inr (Or.inl rfl))⟩)
        · rw [hms, stepTask_wait_ms1a]
          exact Or.inr (Or.inl
            ⟨rfl, OneAt_set_other hgi hothers hki (Or.inr (Or.inl rfl))⟩)
        · rw [hms, stepTask_done]
          exact Or.inr (Or.inl
            ⟨rfl, OneAt_set_other hgi hothers hki (Or.inr (Or.inr rfl))⟩)
    · by_cases hki : k = i
      · subst hki
        rw [hgi] at hk
        injection hk with hk2
        subst hk2
        rw [hms, stepTask_vm_ms1b]
        exact Or.inr (Or.inr (Or.inr (Or.inl ⟨rfl, OneAt_set_creator hgi hothers⟩)))
      · rcases hothers k t hki hk with rfl | rfl | rfl
        · rw [hms, stepTask_start_ms1b]
          exact Or.inr (Or.inr (Or.inl
            ⟨rfl, OneAt_set_other hgi hothers hki (Or.inr (Or.inl rfl))⟩))
        · rw [hms, stepTask_wait_ms1b]
          exact Or.inr (Or.inr (Or.inl
            ⟨rfl, OneAt_set_other hgi hothers hki (Or.inr (Or.inl rfl))⟩))
        · rw [hms, stepTask_done]
          exact Or.inr (Or.inr (Or.inl
            ⟨rfl, OneAt_set_other hgi hothers hki (Or.inr (Or.inr rfl))⟩))
    · by_cases hki : k = i
      · subst hki
        rw [hgi] at hk
        injection hk with hk2
        subst hk2
        rw [hms, stepTask_await_ms2]
        exact Or.inr (Or.inr (Or.inr (Or.inr
          ⟨rfl, OneAt_to_AllP hothers (Or.inr (Or.inr rfl))⟩)))
      · rcases hothers k t hki hk with rfl | rfl | rfl
        · rw [hms, stepTask_start_ms2]
          exact Or.inr (Or.inr (Or.inr (Or.inl
            ⟨rfl, OneAt_set_other hgi hothers hki (Or.inr (Or.inl rfl))⟩)))
        · rw [hms, stepTask_wait_ms2]
          exact Or.inr (Or.inr (Or.inr (Or.inl
            ⟨rfl, OneAt_set_other hgi hothers hki (Or.inr (Or.inr rfl))⟩)))
        · rw [hms, stepTask_done]
          exact Or.inr (Or.inr (Or.inr (Or.inl
            ⟨rfl, OneAt_set_other hgi hothers hki (Or.inr (Or.inr rfl))⟩)))
    · rcases hall k t hk with rfl | rfl | rfl
      · rw [hms, stepTask_start_ms3]
        exact Or.inr (Or.inr (Or.inr (Or.inr
          ⟨rfl, AllP_set hall (Or.inr (Or.inr rfl))⟩)))
      · rw [hms, stepTask_wait_ms3]
        exact Or.inr (Or.inr (Or.inr (Or.inr
          ⟨rfl, AllP_set hall (Or.inr (Or.inr rfl))⟩)))
      · rw [hms, stepTask_done]
        exact Or.inr (Or.inr (Or.inr (Or.inr
          ⟨rfl, AllP_set hall (Or.inr (Or.inr rfl))⟩)))

theorem inv_run (sid baseDir vmWorkspace : JStr) (sched : List Nat) :
    ∀ cfg, Inv sid baseDir vmWorkspace cfg →
      Inv sid baseDir vmWorkspace (run baseDir vmWorkspace cfg sched) := by
  induction sched with
  | nil => intro cfg h; exact h
  | cons s rest ih =>
    intro cfg h
    exact ih _ (inv_step sid baseDir vmWorkspace cfg s h)

theorem step_length (baseDir vmWorkspace : JStr) (cfg : Config) (i : Nat) :
    (step baseDir vmWorkspace cfg i).tasks.length = cfg.tasks.length := by
  rcases hk : cfg.tasks.get? i with _ | t
  · rw [show step baseDir vmWorkspace cfg i = cfg from by unfold step; rw [hk]]
  · rw [show step baseDir vmWorkspace cfg i =
        { ms := (stepTask baseDir vmWorkspace cfg.ms t).1,
          tasks := cfg.tasks.set i (stepTask baseDir vmWorkspace cfg.ms t).2 } from by
      unfold step; rw [hk]]
    exact List.length_set _ _ _

theorem run_length (baseDir vmWorkspace : JStr) (sched : List Nat) :
    ∀ cfg, (run baseDir vmWorkspace cfg sched).tasks.length = cfg.tasks.length := by
  induction sched with
  | nil => intro cfg; rfl
  | cons s rest ih =>
    intro cfg
    rw [show run baseDir vmWorkspace cfg (s :: rest) =
        run baseDir vmWorkspace (step baseDir vmWorkspace cfg s) rest from rfl,
      ih, step_length]

theorem inv_extract (sid baseDir vmWorkspace : JStr) (cfg : Config)
    (hInv : Inv sid baseDir vmWorkspace cfg) (hlen : 0 < cfg.tasks.length)
    (hdone : ∀ t ∈ cfg.tasks, isDone t = true) :
    (∀ t ∈ cfg.tasks, t = .gocDone (st0 baseDir vmWorkspace sid)) ∧
    cfg.ms.worktreesCreated = [join2 baseDir sid] ∧
    cfg.ms.vmsCreated = 1 ∧
    mlookup cfg.ms.sessions sid = some (st0 baseDir vmWorkspace sid) := by
  rcases hInv with ⟨hms, hall⟩ | ⟨hms, i, hgi, hothers⟩ | ⟨hms, i, hgi, hothers⟩ |
    ⟨hms, i, hgi, hothers⟩ | ⟨hms, hall⟩
  · exfalso
    rcases hts : cfg.tasks with _ | ⟨t0, rest⟩
    · rw [hts] at hlen
      simp at hlen
    · have hg0 : cfg.tasks.get? 0 = some t0 := by rw [hts]; rfl
      have ht := hall 0 t0 hg0
      have hd := hdone t0 (List.get?_mem hg0)
      rw [ht] at hd
      simp [isDone] at hd
  · exfalso
    have hd := hdone _ (List.get?_mem hgi)
    simp [isDone] at hd
  · exfalso
    have hd := hdone _ (List.get?_mem hgi)
    simp [isDone] at hd
  · exfalso
    have hd := hdone _ (List.get?_mem hgi)
    simp [isDone] at hd
  · refine ⟨?_, ?_, ?_, ?_⟩
    · intro t ht
      obtain ⟨j, hj⟩ := List.get?_of_mem ht
      rcases hall j t hj with rfl | rfl | rfl
      · have hd := hdone _ ht
        simp [isDone] at hd
      · have hd := hdone _ ht
        simp [isDone] at hd
      · rfl
    · rw [hms]
      rfl
    · rw [hms]
      rfl
    · rw [hms]
      simp [ms3, ms2, ms1b, ms1a, emptyMState, mlookup]

/-- C1: single-flight session creation.  Starting from a fresh manager with
`n ≥ 1` concurrent `getOrCreate` calls for the same identifier, any
interleaving that runs all calls to completion creates exactly one worktree
and exactly one VM handle, registers exactly that one session, and every
call returns the same session state.  Moreover the very first atomic step of
the creating call (the synchronous prefix of `getOrCreate`) publishes the
in-flight promise before any worktree or VM creation happens. -/
theorem singleFlight (sid baseDir vmWorkspace : JStr) (n : Nat) (sched : List Nat)
    (hn : 1 ≤ n)
    (hdone : ∀ t ∈ (run baseDir vmWorkspace
        ⟨emptyMState, List.replicate n (.gocStart sid)⟩ sched).tasks,
      isDone t = true) :
    (∃ st : SessionState,
      (∀ t ∈ (run baseDir vmWorkspace
          ⟨emptyMState, List.replicate n (.gocStart sid)⟩ sched).tasks,
        t = .gocDone st) ∧
      (run baseDir vmWorkspace ⟨emptyMState, List.replicate n (.gocStart sid)⟩
        sched).ms.worktreesCreated.length = 1 ∧
      (run baseDir vmWorkspace ⟨emptyMState, List.replicate n (.gocStart sid)⟩
        sched).ms.vmsCreated = 1 ∧
      mlookup (run baseDir vmWorkspace
          ⟨emptyMState, List.replicate n (.gocStart sid)⟩ sched).ms.sessions sid =
        some st) ∧
    (∀ ms : MState, mlookup ms.sessions sid = none →
      mlookup ms.initializing sid = none →
      mlookup (stepTask baseDir vmWorkspace ms (.gocStart sid)).1.initializing sid =
        some ms.promises.length ∧
      (stepTask baseDir vmWorkspace ms (.gocStart sid)).1.worktreesCreated =
        ms.worktreesCreated ∧
      (stepTask baseDir vmWorkspace ms (.gocStart sid)).1.vmsCreated =
        ms.vmsCreated ∧
      (stepTask baseDir vmWorkspace ms (.gocStart sid)).2 =
        .gocInitWorktree sid ms.promises.length) := by
  constructor
  · have hInv0 : Inv sid baseDir vmWorkspace
        ⟨emptyMState, List.replicate n (.gocStart sid)⟩ :=
      Or.inl ⟨rfl, fun j t hj => List.eq_of_mem_replicate (List.get?_mem hj)⟩
    have hInv := inv_run sid baseDir vmWorkspace sched _ hInv0
    have hlen : 0 < (run baseDir vmWorkspace
        ⟨emptyMState, List.replicate n (.gocStart sid)⟩ sched).tasks.length := by
      rw [run_length]
      simpa using hn
    obtain ⟨h1, h2, h3, h4⟩ := inv_extract sid baseDir vmWorkspace _ hInv hlen hdone
    refine ⟨st0 baseDir vmWorkspace sid, h1, ?_, h3, h4⟩
    rw [h2]
    rfl
  · intro ms h1 h2
    refine ⟨?_, ?_, ?_, ?_⟩ <;> simp [stepTask, h1, h2, minsert, mlookup]

/-- Witness for C1: two concurrent calls, a concrete interleaving. -/
theorem singleFlight_witness :
    ∃ st : SessionState,
      (∀ t ∈ (run ("/tmp/b".toList) ("/workspace".toList)
          ⟨emptyMState, List.replicate 2 (.gocStart ("s1".toList))⟩
          [0, 0, 0, 0, 1]).tasks, t = .gocDone st) ∧
      (run ("/tmp/b".toList) ("/workspace".toList)
        ⟨emptyMState, List.replicate 2 (.gocStart ("s1".toList))⟩
        [0, 0, 0, 0, 1]).ms.worktreesCreated.length = 1 ∧
      (run ("/tmp/b".toList) ("/workspace".toList)
        ⟨emptyMState, List.replicate 2 (.gocStart ("s1".toList))⟩
        [0, 0, 0, 0, 1]).ms.vmsCreated = 1 ∧
      mlookup (run ("/tmp/b".toList) ("/workspace".toList)
          ⟨emptyMState, List.replicate 2 (.gocStart ("s1".toList))⟩
          [0, 0, 0, 0, 1]).ms.sessions ("s1".toList) = some st :=
  (singleFlight ("s1".toList) ("/tmp/b".toList) ("/workspace".toList) 2
    [0, 0, 0, 0, 1] (by decide) (by decide)).1

theorem stepTask_des_ms1a (baseDir vmWorkspace sid : JStr) :
    stepTask baseDir vmWorkspace (ms1a sid) (.desStart sid) =
      (ms1a sid, .desDone) := by
  simp [stepTask, ms1a, emptyMState, mlookup]

theorem stepTask_des_ms1b (baseDir vmWorkspace sid : JStr) :
    stepTask baseDir vmWorkspace (ms1b sid baseDir) (.desStart sid) =
      (ms1b sid baseDir, .desDone) := by
  simp [stepTask, ms1b, ms1a, emptyMState, mlookup]

theorem stepTask_des_ms2 (baseDir vmWorkspace sid : JStr) :
    stepTask baseDir vmWorkspace (ms2 sid baseDir vmWorkspace) (.desStart sid) =
      (ms2 sid baseDir vmWorkspace, .desDone) := by
  simp [stepTask, ms2, ms1b, ms1a, emptyMState, mlookup]

/-- C9: a `destroy(sid)` step taken while the initialisation of `sid` is in
flight but no session is yet registered (after `k` creator steps with
`1 ≤ k ≤ 3`) is a complete no-op on the manager state — it performs no
teardown I/O and leaves the in-flight initialisation untouched — and the
initialisation afterwards still completes and registers its session: the
final state has the session registered, empty teardown logs, the creator
done and the destroy call returned. -/
theorem destroy_during_init (sid baseDir vmWorkspace : JStr) (k : Nat)
    (h1 : 1 ≤ k) (h3 : k ≤ 3) :
    (step baseDir vmWorkspace
        (run baseDir vmWorkspace ⟨emptyMState, [.gocStart sid, .desStart sid]⟩
          (List.replicate k 0)) 1).ms =
      (run baseDir vmWorkspace ⟨emptyMState, [.gocStart sid, .desStart sid]⟩
        (List.replicate k 0)).ms ∧
    run baseDir vmWorkspace
        (step baseDir vmWorkspace
          (run baseDir vmWorkspace ⟨emptyMState, [.gocStart sid, .desStart sid]⟩
            (List.replicate k 0)) 1)
        (List.replicate (4 - k) 0) =
      ⟨ms3 sid baseDir vmWorkspace,
        [.gocDone (st0 baseDir vmWorkspace sid), .desDone]⟩ := by
  interval_cases k <;>
    refine ⟨?_, ?_⟩ <;>
      simp [run, step, List.replicate, List.foldl, List.get?, List.set,
        stepTask_start_empty, stepTask_wt_ms1a, stepTask_vm_ms1b,
        stepTask_await_ms2, stepTask_done, stepTask_des_ms1a,
        stepTask_des_ms1b, stepTask_des_ms2]

/-- Witness for C9 at a concrete input (destroy scheduled after two creator
steps). -/
theorem destroy_during_init_witness :
    (step ("/tmp/b".toList) ("/workspace".toList)
        (run ("/tmp/b".toList) ("/workspace".toList)
          ⟨emptyMState, [.gocStart ("s1".toList), .desStart ("s1".toList)]⟩
          (List.replicate 2 0)) 1).ms =
      (run ("/tmp/b".toList) ("/workspace".toList)
        ⟨emptyMState, [.gocStart ("s1".toList), .desStart ("s1".toList)]⟩
        (List.replicate 2 0)).ms ∧
    run ("/tmp/b".toList) ("/workspace".toList)
        (step ("/tmp/b".toList) ("/workspace".toList)
          (run ("/tmp/b".toList) ("/workspace".toList)
            ⟨emptyMState, [.gocStart ("s1".toList), .desStart ("s1".toList)]⟩
            (List.replicate 2 0)) 1)
        (List.replicate (4 - 2) 0) =
      ⟨ms3 ("s1".toList) ("/tmp/b".toList) ("/workspace".toList),
        [.gocDone (st0 ("/tmp/b".toList) ("/workspace".toList) ("s1".toList)),
          .desDone]⟩ :=
  destroy_during_init ("s1".toList) ("/tmp/b".toList) ("/workspace".toList) 2
    (by decide) (by decide)

/-! ### Model of `src/create-branch-tool.ts` and the plugin event hook -/

/-- External effects a tool call or teardown can perform: closing a VM,
removing a worktree, and the git operations of `src/worktree.ts`
(`commitAllChanges` = stage all + commit, `pushBranch`). -/
inductive PluginAction where
  | vmClose (vm : Nat)
  | removeWT (dir : JStr)
  | gitCommitAll (dir msg : JStr)
  | gitPushBranch (dir branch : JStr)
deriving DecidableEq

/-- Outcomes of the external git subprocesses consumed by the tools:
`hasChanges` is the dirty-state query, `commitError`/`pushError` yield the
error message when the corresponding operation rejects (`none` = success),
`remoteUrl` models `getRemoteUrl` (already `none` on failure in the source). -/
structure GitOracle where
  hasChanges : JStr → Bool
  commitError : JStr → JStr → Option JStr
  pushError : JStr → JStr → Option JStr
  remoteUrl : JStr → Option JStr

/-- Apostrophe character, written by code point to build the quoted branch
names appearing in the tool's output strings. -/
def squote : Char := Char.ofNat 39

/-- Model of JavaScript `hay.includes(needle)`. -/
def includesJ : JStr → JStr → Bool
  | hay, needle =>
    match hay with
    | [] => needle.isPrefixOf []
    | c :: t => needle.isPrefixOf (c :: t) || includesJ t needle

/-- Splits at the first `':'`, returning the parts before and after it. -/
def splitFirstColon : JStr → Option (JStr × JStr)
  | [] => none
  | c :: rest =>
    if c = ':' then some ([], rest)
    else
      match splitFirstColon rest with
      | none => none
      | some (a, b) => some (c :: a, b)

/-- Model of the remote-URL normalization in `getPullRequestUrl`
(`src/create-branch-tool.ts` lines 156-158): rewrite the SSH form
`git@host:path` to `https://host/path` (the host part is the non-empty
colon-free group of the regex) and strip a trailing `.git`. -/
def normalizeRemote (s : JStr) : JStr :=
  let s1 :=
    if "git@".toList.isPrefixOf s then
      match splitFirstColon (s.drop 4) with
      | some (host, rest) =>
        if host = [] then s else "https://".toList ++ host ++ '/' :: rest
      | none => s
    else s
  if ".git".toList.isSuffixOf s1 then s1.take (s1.length - 4) else s1

/-- Hexadecimal digit (uppercase), for percent-encoding. -/
def hexDigit (n : Nat) : Char :=
  if n < 10 then Char.ofNat (48 + n) else Char.ofNat (55 + n)

/-- UTF-8 encoding of one character as byte values. -/
def utf8Bytes (c : Char) : List Nat :=
  let n := c.toNat
  if n < 128 then [n]
  else if n < 2048 then [192 + n / 64, 128 + n % 64]
  else if n < 65536 then [224 + n / 4096, 128 + (n / 64) % 64, 128 + n % 64]
  else [240 + n / 262144, 128 + (n / 4096) % 64, 128 + (n / 64) % 64, 128 + n % 64]

/-- Characters not escaped by JavaScript `encodeURIComponent`. -/
def isUnreservedURI (c : Char) : Bool :=
  c.isAlphanum || ['-', '_', '.', '!', '~', '*', squote, '(', ')'].contains c

/-- Model of JavaScript `encodeURIComponent`: unreserved characters kept,
everything else percent-encoded per UTF-8 byte. -/
def encodeURIComponent (s : JStr) : JStr :=
  concatAll (s.map fun c =>
    if isUnreservedURI c then [c]
    else concatAll ((utf8Bytes c).map fun b => ['%', hexDigit (b / 16), hexDigit (b % 16)]))

/-- Model of `getPullRequestUrl` (`src/create-branch-tool.ts` lines 151-176):
host-specific PR-creation URLs for GitHub, GitLab and Bitbucket shaped
remotes, `none` otherwise. -/
def getPullRequestUrl (remoteUrl branchName : JStr) : Option JStr :=
  let normalized := normalizeRemote remoteUrl
  if includesJ normalized ("github.com".toList) then
    some (normalized ++ "/compare/".toList ++ encodeURIComponent branchName ++
      "?expand=1".toList)
  else if includesJ normalized ("gitlab.com".toList) ||
      includesJ normalized ("gitlab".toList) then
    some (normalized ++ "/-/merge_requests/new?merge_request[source_branch]=".toList ++
      encodeURIComponent branchName)
  else if includesJ normalized ("bitbucket.org".toList) then
    some (normalized ++ "/pull-requests/new?source=".toList ++
      encodeURIComponent branchName)
  else none

/-- Exact error text returned when the create-branch tool finds no live
session (`src/create-branch-tool.ts` line 38). -/
def noSessionError : JStr :=
  "Error: No active session found. The sandbox may not have been initialized.".toList

/-- Model of `createBranchTool.execute` (`src/create-branch-tool.ts` lines
35-111): looks the session up with the non-creating `get`, returns the
no-session error when absent, otherwise checks for changes, commits, pushes
and builds the human-readable result, threading the manager state through
unchanged (the function never mutates it) and logging the git actions
attempted. -/
def createBranchExecute (ms : MState) (git : GitOracle)
    (projectDir sessionID branchName commitMessage : JStr) :
    MState × JStr × List PluginAction :=
  match mlookup ms.sessions sessionID with
  | none => (ms, noSessionError, [])
  | some st =>
    if git.hasChanges st.worktreeDir = false then
      (ms, "No changes to push. The working tree is clean.".toList, [])
    else
      match git.commitError st.worktreeDir commitMessage with
      | some err =>
        (ms, "Error committing changes: ".toList ++ err,
          [.gitCommitAll st.worktreeDir commitMessage])
      | none =>
        match git.pushError st.worktreeDir branchName with
        | some err =>
          if includesJ err ("already exists".toList) then
            (ms, "Error: Branch ".toList ++ squote :: branchName ++ squote ::
                " already exists on the remote. Please choose a different branch name.".toList,
              [.gitCommitAll st.worktreeDir commitMessage,
                .gitPushBranch st.worktreeDir branchName])
          else
            (ms, "Error pushing branch: ".toList ++ err,
              [.gitCommitAll st.worktreeDir commitMessage,
                .gitPushBranch st.worktreeDir branchName])
        | none =>
          let base := "Successfully created branch ".toList ++ squote :: branchName ++
            squote :: " with your changes.".toList
          let acts := [PluginAction.gitCommitAll st.worktreeDir commitMessage,
            PluginAction.gitPushBranch st.worktreeDir branchName]
          match git.remoteUrl projectDir with
          | none => (ms, base, acts)
          | some url =>
            if url = [] then (ms, base, acts)
            else
              match getPullRequestUrl url branchName with
              | some pr => (ms, base ++ "\n\nCreate a PR: ".toList ++ pr, acts)
              | none => (ms, base ++ "\n\nRemote: ".toList ++ url, acts)

/-- Model of `autoCreateBranch` (`src/create-branch-tool.ts` lines 119-146):
deterministic branch name `opencode/session-<first 8 chars of the id minus
a leading "ses_">` and commit message derived from the session identifier;
every failure yields `none` (skipped). -/
def autoCreateBranch (ms : MState) (git : GitOracle) (projectDir sessionID : JStr) :
    Option JStr × List PluginAction :=
  match mlookup ms.sessions sessionID with
  | none => (none, [])
  | some st =>
    if git.hasChanges st.worktreeDir = false then (none, [])
    else
      let shortId := (if "ses_".toList.isPrefixOf sessionID then sessionID.drop 4
        else sessionID).take 8
      let branchName := "opencode/session-".toList ++ shortId
      let commitMessage := "Changes from OpenCode session ".toList ++ sessionID
      match git.commitError st.worktreeDir commitMessage with
      | some _ => (none, [.gitCommitAll st.worktreeDir commitMessage])
      | none =>
        match git.pushError st.worktreeDir branchName with
        | some _ =>
          (none, [.gitCommitAll st.worktreeDir commitMessage,
            .gitPushBranch st.worktreeDir branchName])
        | none =>
          (some branchName, [.gitCommitAll st.worktreeDir commitMessage,
            .gitPushBranch st.worktreeDir branchName])

/-- Lifecycle event carried to the plugin's `event` hook: its `type` and the
`properties.info.id` field when present. -/
structure SessionEvent where
  type : JStr
  infoId : Option JStr

/-- Effects of one sequential `destroy(sid)` call, with the teardown I/O it
performs as actions (`src/session-manager.ts` lines 61-70). -/
def destroyActions (ms : MState) (sid : JStr) : MState × List PluginAction :=
  match mlookup ms.sessions sid with
  | none => (ms, [])
  | some st =>
    ({ ms with
        sessions := merase ms.sessions sid,
        initializing := merase ms.initializing sid,
        vmsClosed := ms.vmsClosed ++ [st.vm],
        worktreesRemoved := ms.worktreesRemoved ++ [st.worktreeDir] },
      [.vmClose st.vm, .removeWT st.worktreeDir])

/-- Model of the plugin's `event` hook (`src/index.ts` lines 83-90): on a
`session.deleted` event carrying a truthy id it destroys that session's
resources, and does nothing else — in particular it never consults the
worktree's git state and never commits or pushes (`autoCreateBranch` exists
in `src/create-branch-tool.ts` but is not invoked from any event handler). -/
def handleEvent (ms : MState) (ev : SessionEvent) : MState × List PluginAction :=
  if ev.type = "session.deleted".toList then
    match ev.infoId with
    | some id => if id = [] then (ms, []) else destroyActions ms id
    | none => (ms, [])
  else (ms, [])

theorem destroyActions_destroySeq (baseDir vmWorkspace : JStr) (ms : MState)
    (sid : JStr) :
    (destroyActions ms sid).1 = destroySeq baseDir vmWorkspace ms sid := by
  rcases h : mlookup ms.sessions sid with _ | st
  · rw [destroySeq_of_none h]
    simp [destroyActions, h]
  · rw [destroySeq_of_some h]
    simp [destroyActions, h]

/-- Whether an action publishes anything to git (commit or push). -/
def isGitPublishAction : PluginAction → Bool
  | .gitCommitAll _ _ => true
  | .gitPushBranch _ _ => true
  | _ => false

/-- Session identifier of the C4 failing input. -/
def c4SessionId : JStr := "ses_abc12345xyz".toList

/-- Registered session of the C4 failing input. -/
def c4State : SessionState :=
  { vm := 7, worktreeDir := "/wt".toList, vmWorkspace := "/workspace".toList,
    createdAt := 0 }

/-- Manager state of the C4 failing input: one live session. -/
def c4MState : MState := { emptyMState with sessions := [(c4SessionId, c4State)] }

/-- Git oracle of the C4 failing input: the worktree has uncommitted changes
and every git operation would succeed. -/
def c4Git : GitOracle :=
  { hasChanges := fun _ => true, commitError := fun _ _ => none,
    pushError := fun _ _ => none, remoteUrl := fun _ => none }

/-- The `session.deleted` event of the C4 failing input. -/
def c4Event : SessionEvent :=
  { type := "session.deleted".toList, infoId := some c4SessionId }

/-- C4 (code bug): on a `session.deleted` event for a session whose worktree
has uncommitted changes, the plugin's event handler only tears the session
down (VM close, worktree removal) — it performs no commit and no push, so no
branch is published.  The never-invoked `autoCreateBranch` on the very same
state would have committed and pushed the deterministically derived branch
`opencode/session-abc12345`. -/
theorem sessionDeleted_no_publish :
    (handleEvent c4MState c4Event).2 = [.vmClose 7, .removeWT ("/wt".toList)] ∧
    ((handleEvent c4MState c4Event).2.all fun a => !isGitPublishAction a) = true ∧
    mlookup (handleEvent c4MState c4Event).1.sessions c4SessionId = none ∧
    (autoCreateBranch c4MState c4Git ("/proj".toList) c4SessionId).1 =
      some ("opencode/session-abc12345".toList) ∧
    (autoCreateBranch c4MState c4Git ("/proj".toList) c4SessionId).2 =
      [.gitCommitAll ("/wt".toList)
          ("Changes from OpenCode session ses_abc12345xyz".toList),
        .gitPushBranch ("/wt".toList) ("opencode/session-abc12345".toList)] := by
  decide

/-- C10: invoked with a session identifier that has no live session, the
create-branch tool returns the exact no-session error text without creating
a session (the manager state is returned unchanged; the lookup is the
non-creating `get`) and without committing or pushing anything. -/
theorem createBranch_no_lazy_creation (ms : MState) (git : GitOracle)
    (projectDir sessionID branchName commitMessage : JStr)
    (h : mlookup ms.sessions sessionID = none) :
    createBranchExecute ms git projectDir sessionID branchName commitMessage =
      (ms, noSessionError, []) := by
  simp [createBranchExecute, h]

/-- Witness for C10 at concrete inputs. -/
theorem createBranch_no_lazy_creation_witness :
    createBranchExecute emptyMState c4Git ("/proj".toList) ("s9".toList)
        ("feat/x".toList) ("msg".toList) = (emptyMState, noSessionError, []) :=
  createBranch_no_lazy_creation emptyMState c4Git ("/proj".toList) ("s9".toList)
    ("feat/x".toList) ("msg".toList) rfl

end Gondolin
